import Mathlib

/-!
Verification of the thread-pool library in src/src/lib.rs (rs-webserver).

The source is a fixed-size thread pool: a ThreadPool owning a vector of
Workers and the sending side of an mpsc channel; Workers share the single
receiving endpoint behind Arc plus Mutex and loop dequeuing Message values
(NewJob carrying a boxed closure, or Terminate which breaks the loop).

Shallow embedding conventions used below:
- a Job is identified by a natural number (the identity of the boxed
  closure); invoking it is recorded rather than run;
- the mpsc channel is a list of Message values used as a FIFO: send appends
  at the tail, recv removes the head;
- a channel endpoint is named by the identifier of the channel it belongs
  to (mpsc channel creation hands out a sender and a receiver of the same
  channel; the receiver is then shared via Arc across all Workers);
- a Rust panic is modelled by an Option or Except style result, or by an
  explicit outcome value, at the place where the source can panic;
- the concurrent execution of the Worker loops against the shared FIFO is
  modelled by a small-step transition relation with nondeterministic
  interleaving (one step: a Worker atomically removes the head under the
  Mutex, or processes the message it holds).
-/

namespace ThreadPoolLib

/-- Message enum from the source: NewJob carries a Job (here, the job's
identifier), Terminate carries nothing. -/
inductive Message where
  | NewJob (job : Nat)
  | Terminate
deriving DecidableEq, Repr

/-- Outcome a thread's JoinHandle will deliver when joined: the thread
returned normally, or it died from a propagated panic. -/
inductive JoinOutcome where
  | ok
  | panicked
deriving DecidableEq, Repr

/-- Worker struct from the source: an identifier plus
Option of JoinHandle.  The receiver field records which channel's shared
receiving endpoint (the Arc of Mutex of Receiver) the Worker was bound to
at construction; the thread field carries what joining the handle would
deliver. -/
structure Worker where
  id : Nat
  receiver : Nat
  thread : Option JoinOutcome
deriving DecidableEq, Repr

/-- ThreadPool struct from the source: the Worker vector and the sending
endpoint of the channel (named by its channel identifier). -/
structure ThreadPool where
  workers : List Worker
  queue : Nat
deriving DecidableEq, Repr

/-- Worker::new from the source: stores the id, binds the spawned thread to
the shared receiving endpoint, and wraps the JoinHandle in Some.  The
spawned loop itself is embedded separately (workerRun below); here the
handle is recorded as present with a normal outcome, which is what the
thread delivers when no executed job panics. -/
def Worker.new (id : Nat) (receiver : Nat) : Worker :=
  { id := id, receiver := receiver, thread := some JoinOutcome.ok }

/-- ThreadPool::new from the source.  It asserts size is positive (a panic,
modelled as none, happening before any channel is created or thread
spawned), then creates one mpsc channel (identifier 0 for the fresh
channel), wraps the receiver in Arc of Mutex, and spawns one Worker per id
in 0..size, each holding a clone of the same Arc. -/
def ThreadPool.new (size : Nat) : Option ThreadPool :=
  if size > 0 then
    some { workers := (List.range size).map (fun id => Worker.new id 0),
           queue := 0 }
  else
    none

/-- ThreadPool::execute from the source: wraps the closure as
Message.NewJob and sends it on the channel; send appends at the FIFO tail.
The function returns the unit value and does not touch the job itself. -/
def ThreadPool.execute (chan : List Message) (job : Nat) : Unit × List Message :=
  ((), chan ++ [Message.NewJob job])

/-- Worker loop body from the source, run against the stream of messages
this Worker dequeues: on NewJob the job is invoked (recorded in the first
component) and the loop continues; on Terminate the loop breaks, leaving
the rest of the stream unconsumed (third component), with the second
component recording that the break was reached.  An empty stream models
recv blocking forever: nothing further is executed and the loop never
exits. -/
def workerRun : List Message → List Nat × Bool × List Message
  | [] => ([], false, [])
  | Message.NewJob j :: rest =>
      let r := workerRun rest
      (j :: r.1, r.2.1, r.2.2)
  | Message.Terminate :: rest => ([], true, rest)

/-- Specification of a job as the Worker sees it when panics are possible:
a well-behaved job, or one that panics when invoked. -/
inductive JobSpec where
  | fine (j : Nat)
  | panics (j : Nat)
deriving DecidableEq, Repr

/-- Message stream element for the panic-aware Worker loop. -/
inductive PMessage where
  | NewJob (js : JobSpec)
  | Terminate
deriving DecidableEq, Repr

/-- How the Worker thread ends: the loop broke on Terminate and the thread
returned; the thread was killed by a panic propagating out of a job
invocation (the source has no catch_unwind around call_box, so the panic
unwinds past the match and past the loop); or the thread is still blocked
in recv. -/
inductive WorkerExit where
  | terminated
  | died
  | blocked
deriving DecidableEq, Repr

/-- Panic-aware Worker loop from the source: completed job invocations in
the first component, how the thread ended in the second, unconsumed
messages in the third.  A panicking job kills the thread at that point;
everything after it in the stream is left unprocessed. -/
def workerRunP : List PMessage → List Nat × WorkerExit × List PMessage
  | [] => ([], WorkerExit.blocked, [])
  | PMessage.NewJob (JobSpec.fine j) :: rest =>
      let r := workerRunP rest
      (j :: r.1, r.2.1, r.2.2)
  | PMessage.NewJob (JobSpec.panics _) :: rest => ([], WorkerExit.died, rest)
  | PMessage.Terminate :: rest => ([], WorkerExit.terminated, rest)

/-- Observable actions of ThreadPool::drop, in program order. -/
inductive Action where
  | sendTerminate
  | join (id : Nat)
deriving DecidableEq, Repr

/-- Second loop of ThreadPool::drop: for each worker in vector order, take
the handle out of the Option (leaving none) and, when it was present, join
it and unwrap the join result.  Returns the ids joined in order, some id
when unwrap panicked at that worker (ending the loop, since the panic
propagates out of drop), and the worker vector as the loop left it. -/
def joinLoop : List Worker → List Nat × Option Nat × List Worker
  | [] => ([], none, [])
  | w :: rest =>
      match w.thread with
      | none =>
          let r := joinLoop rest
          (r.1, r.2.1, w :: r.2.2)
      | some JoinOutcome.ok =>
          let r := joinLoop rest
          (w.id :: r.1, r.2.1, { w with thread := none } :: r.2.2)
      | some JoinOutcome.panicked =>
          ([w.id], some w.id, { w with thread := none } :: rest)

/-- ThreadPool::drop from the source, as its sequence of observable
actions: a first loop sending one Terminate per worker, then the join
loop. -/
def dropActions (p : ThreadPool) : List Action :=
  p.workers.map (fun _ => Action.sendTerminate)
    ++ (joinLoop p.workers).1.map Action.join

/-- Effect of the first drop loop on the channel: one Terminate appended
per worker, after everything already sent. -/
def dropSends (p : ThreadPool) (chan : List Message) : List Message :=
  chan ++ p.workers.map (fun _ => Message.Terminate)

/-- Channel contents after submitting the jobs 0..M-1 through
ThreadPool.execute, in order, starting from an empty channel. -/
def submitAll (M : Nat) : List Message :=
  (List.range M).foldl (fun chan j => (ThreadPool.execute chan j).2) []

/-- State of one Worker thread in the interleaved execution: blocked in or
about to call recv; holding a message just removed from the FIFO (the
Mutex guard on the receiver is already released, see lockStmtEvents
below); or returned after breaking on Terminate. -/
inductive WState where
  | running
  | holding (m : Message)
  | terminated
deriving DecidableEq, Repr

/-- Global state of the interleaved system: the FIFO contents, the state
of each Worker thread (index in the list = Worker id), the shared counter
incremented once per completed job invocation, and the log of messages in
the order they were removed from the FIFO. -/
structure SysState where
  queue : List Message
  wstates : List WState
  executed : Nat
  deqLog : List Message
deriving DecidableEq, Repr

/-- Small-step interleaving semantics of the Worker loops against the
shared FIFO.  recvStep: a Worker in the running state locks the Mutex,
removes the FIFO head, and releases the lock (recv is atomic per message
under the lock: exactly one Worker obtains any given message).  execStep:
a Worker holding a NewJob invokes it, bumping the shared counter, and
loops back to running.  termStep: a Worker holding Terminate breaks out of
its loop and its thread returns. -/
inductive SysStep : SysState → SysState → Prop where
  | recvStep (s : SysState) (i : Nat) (m : Message) (q : List Message)
      (hw : s.wstates[i]? = some WState.running)
      (hq : s.queue = m :: q) :
      SysStep s { queue := q,
                  wstates := s.wstates.set i (WState.holding m),
                  executed := s.executed,
                  deqLog := s.deqLog ++ [m] }
  | execStep (s : SysState) (i : Nat) (j : Nat)
      (hw : s.wstates[i]? = some (WState.holding (Message.NewJob j))) :
      SysStep s { queue := s.queue,
                  wstates := s.wstates.set i WState.running,
                  executed := s.executed + 1,
                  deqLog := s.deqLog }
  | termStep (s : SysState) (i : Nat)
      (hw : s.wstates[i]? = some (WState.holding Message.Terminate)) :
      SysStep s { queue := s.queue,
                  wstates := s.wstates.set i WState.terminated,
                  executed := s.executed,
                  deqLog := s.deqLog }

/-- Reflexive-transitive closure of the interleaving step. -/
def SysReach : SysState → SysState → Prop :=
  Relation.ReflTransGen SysStep

/-- Initial state of the system once M jobs have been submitted and
shutdown has queued one Terminate per Worker of a pool of size N: the FIFO
holds the submissions followed by the Terminates, every Worker thread is
in its loop, nothing has run yet. -/
def initState (M N : Nat) : SysState :=
  { queue := dropSends { workers := (List.range N).map (fun id => Worker.new id 0),
                         queue := 0 }
              (submitAll M),
    wstates := List.replicate N WState.running,
    executed := 0,
    deqLog := [] }

/-- Test for the NewJob alternative of Message. -/
def isJob : Message → Bool
  | Message.NewJob _ => true
  | Message.Terminate => false

/-- Test for a Worker state holding an unprocessed NewJob. -/
def holdsJob : WState → Bool
  | WState.holding (Message.NewJob _) => true
  | _ => false

/-- Test for a Worker state holding an unprocessed Terminate. -/
def holdsTerm : WState → Bool
  | WState.holding Message.Terminate => true
  | _ => false

/-- Test for a returned Worker thread. -/
def isTerminated : WState → Bool
  | WState.terminated => true
  | _ => false

/-- Worked interleaving used to instantiate the reachability theorems: a
pool of one Worker, one submitted job.  The Worker dequeues the job,
executes it, dequeues Terminate, and returns. -/
def exampleFinal : SysState :=
  { queue := [],
    wstates := [WState.terminated],
    executed := 1,
    deqLog := [Message.NewJob 0, Message.Terminate] }

/-- First intermediate state of the worked interleaving. -/
def exampleMid1 : SysState :=
  { queue := [Message.Terminate],
    wstates := [WState.holding (Message.NewJob 0)],
    executed := 0,
    deqLog := [Message.NewJob 0] }

/-- Second intermediate state of the worked interleaving. -/
def exampleMid2 : SysState :=
  { queue := [Message.Terminate],
    wstates := [WState.running],
    executed := 1,
    deqLog := [Message.NewJob 0] }

/-- Third intermediate state of the worked interleaving. -/
def exampleMid3 : SysState :=
  { queue := [],
    wstates := [WState.holding Message.Terminate],
    executed := 1,
    deqLog := [Message.NewJob 0, Message.Terminate] }

/-- Primitive events of one iteration of the Worker loop, at the
granularity of the Mutex on the shared receiver. -/
inductive LockEvent where
  | acquire
  | recv
  | release
  | invoke (j : Nat)
  | breakLoop
deriving DecidableEq, Repr

/-- Events of the statement
let message = receiver.as_ref().lock().unwrap().recv().unwrap();
in the source.  The MutexGuard returned by lock() is a temporary of this
let statement: the received Message is moved out of recv(), no guard is
bound to a variable, so Rust drops the guard at the end of the statement —
the lock is acquired, the head message is received, and the lock is
released, all before the following match on the message runs. -/
def lockStmtEvents : List LockEvent :=
  [LockEvent.acquire, LockEvent.recv, LockEvent.release]

/-- Events of the match on the received message: a NewJob arm invokes the
job, the Terminate arm breaks the loop. -/
def matchEvents : Message → List LockEvent
  | Message.NewJob j => [LockEvent.invoke j]
  | Message.Terminate => [LockEvent.breakLoop]

/-- Event trace of one full iteration of the Worker loop on one dequeued
message: the locked receive statement, then the match on the message. -/
def iterationEvents (m : Message) : List LockEvent :=
  lockStmtEvents ++ matchEvents m

/-- Test for the lock-acquire event. -/
def isAcquire : LockEvent → Bool
  | LockEvent.acquire => true
  | _ => false

/-- Test for the lock-release event. -/
def isRelease : LockEvent → Bool
  | LockEvent.release => true
  | _ => false

/-- The Mutex is held when the event at position k of a trace runs when
strictly more acquires than releases precede it. -/
def lockHeldAt (tr : List LockEvent) (k : Nat) : Prop :=
  (tr.take k).countP isRelease < (tr.take k).countP isAcquire

/-- Accounting invariant of the interleaved system: the dequeue log and
the FIFO together are exactly the sent sequence; every job removed from
the FIFO is either executed or still in some Worker's hands; every
Terminate removed is either being processed or has ended its Worker; the
Worker count is N. -/
def SysInv (M N : Nat) (s : SysState) : Prop :=
  s.deqLog ++ s.queue = (initState M N).queue ∧
  s.executed + s.wstates.countP holdsJob = s.deqLog.countP isJob ∧
  s.wstates.countP isTerminated + s.wstates.countP holdsTerm
    = s.deqLog.countP (fun m => !isJob m) ∧
  s.wstates.length = N

/-- Folding ThreadPool.execute over a list of jobs appends the
corresponding NewJob messages, in order, at the FIFO tail. -/
lemma foldl_execute (js : List Nat) (chan : List Message) :
    js.foldl (fun c j => (ThreadPool.execute c j).2) chan
      = chan ++ js.map Message.NewJob := by
  induction js generalizing chan with
  | nil => simp
  | cons j js ih =>
      rw [List.foldl_cons, ih]
      simp [ThreadPool.execute]

/-- Closed form of the submission phase. -/
lemma submitAll_eq (M : Nat) :
    submitAll M = (List.range M).map Message.NewJob := by
  simpa [submitAll] using foldl_execute (List.range M) []

/-- Mapping a constant function over a list yields a replicate of its
length. -/
lemma map_const_terminate (l : List Worker) :
    l.map (fun _ => Message.Terminate)
      = List.replicate l.length Message.Terminate := by
  induction l with
  | nil => rfl
  | cons x xs ih => simp [ih, List.replicate_succ]

/-- Closed form of the initial FIFO: M NewJob messages followed by N
Terminate messages. -/
lemma initState_queue_eq (M N : Nat) :
    (initState M N).queue
      = (List.range M).map Message.NewJob
          ++ List.replicate N Message.Terminate := by
  have h : (initState M N).queue
      = submitAll M
          ++ ((List.range N).map (fun id => Worker.new id 0)).map
              (fun _ => Message.Terminate) := rfl
  rw [h, map_const_terminate, submitAll_eq]
  simp

/-- Decomposition of a list around a position known to hold a value: the
list splits as a prefix part, the value, and a tail part, and setting at
that position replaces just the value. -/
lemma get_set_decomp {α : Type} (l : List α) (i : Nat) (a : α)
    (h : l[i]? = some a) :
    ∃ l1 l2, l = l1 ++ a :: l2 ∧ l1.length = i ∧
      ∀ b, l.set i b = l1 ++ b :: l2 := by
  induction l generalizing i with
  | nil => simp at h
  | cons x xs ih =>
      cases i with
      | zero =>
          simp at h
          exact ⟨[], xs, by simp [h], rfl, by simp⟩
      | succ n =>
          simp only [List.getElem?_cons_succ] at h
          obtain ⟨l1, l2, hdec, hlen, hset⟩ := ih n h
          exact ⟨x :: l1, l2, by simp [hdec], by simp [hlen],
                 fun b => by simp [List.set, hset b]⟩

/-- Names for the branch values of the Worker-state tests, as simp fuel. -/
@[simp] lemma isJob_newJob (j : Nat) : isJob (Message.NewJob j) = true := rfl

@[simp] lemma isJob_terminate : isJob Message.Terminate = false := rfl

@[simp] lemma holdsJob_running : holdsJob WState.running = false := rfl

@[simp] lemma holdsJob_terminated : holdsJob WState.terminated = false := rfl

@[simp] lemma holdsJob_holding (m : Message) :
    holdsJob (WState.holding m) = isJob m := by cases m <;> rfl

@[simp] lemma holdsTerm_running : holdsTerm WState.running = false := rfl

@[simp] lemma holdsTerm_terminated : holdsTerm WState.terminated = false := rfl

@[simp] lemma holdsTerm_holding (m : Message) :
    holdsTerm (WState.holding m) = !isJob m := by cases m <;> rfl

@[simp] lemma isTerminated_running : isTerminated WState.running = false := rfl

@[simp] lemma isTerminated_terminated : isTerminated WState.terminated = true := rfl

@[simp] lemma isTerminated_holding (m : Message) :
    isTerminated (WState.holding m) = false := rfl

/-- One interleaved step preserves the accounting invariant. -/
lemma sysStep_preserves_inv (M N : Nat) {s s' : SysState}
    (hs : SysInv M N s) (st : SysStep s s') : SysInv M N s' := by
  obtain ⟨h1, h2, h3, h4⟩ := hs
  cases st with
  | recvStep i m q hw hq =>
      obtain ⟨l1, l2, hdec, _, hset⟩ := get_set_decomp _ _ _ hw
      refine ⟨?_, ?_, ?_, ?_⟩
      · simpa [hq, List.append_assoc] using h1
      · rw [hset (WState.holding m)]
        rw [hdec] at h2
        simp only [List.countP_append, List.countP_cons] at h2 ⊢
        cases m <;> simp at h2 ⊢ <;> omega
      · rw [hset (WState.holding m)]
        rw [hdec] at h3
        simp only [List.countP_append, List.countP_cons] at h3 ⊢
        cases m <;> simp at h3 ⊢ <;> omega
      · rw [List.length_set]
        exact h4
  | execStep i j hw =>
      obtain ⟨l1, l2, hdec, _, hset⟩ := get_set_decomp _ _ _ hw
      refine ⟨h1, ?_, ?_, ?_⟩
      · rw [hset WState.running]
        rw [hdec] at h2
        simp only [List.countP_append, List.countP_cons] at h2 ⊢
        simp [isJob] at h2 ⊢
        omega
      · rw [hset WState.running]
        rw [hdec] at h3
        simp only [List.countP_append, List.countP_cons] at h3 ⊢
        simp at h3 ⊢
        omega
      · rw [List.length_set]
        exact h4
  | termStep i hw =>
      obtain ⟨l1, l2, hdec, _, hset⟩ := get_set_decomp _ _ _ hw
      refine ⟨h1, ?_, ?_, ?_⟩
      · rw [hset WState.terminated]
        rw [hdec] at h2
        simp only [List.countP_append, List.countP_cons] at h2 ⊢
        simp at h2 ⊢
        omega
      · rw [hset WState.terminated]
        rw [hdec] at h3
        simp only [List.countP_append, List.countP_cons] at h3 ⊢
        simp at h3 ⊢
        omega
      · rw [List.length_set]
        exact h4

/-- The initial state satisfies the accounting invariant. -/
lemma sysInv_init (M N : Nat) : SysInv M N (initState M N) := by
  refine ⟨by simp [initState], ?_, ?_, ?_⟩
  · simp [initState, List.countP_replicate]
  · simp [initState, List.countP_replicate]
  · simp [initState]

/-- Every state reachable from the initial state satisfies the accounting
invariant. -/
lemma sysReach_inv (M N : Nat) {s : SysState}
    (h : SysReach (initState M N) s) : SysInv M N s := by
  induction h with
  | refl => exact sysInv_init M N
  | tail _ hbc ih => exact sysStep_preserves_inv M N ih hbc

/-- When the dequeue log of a state satisfying the invariant contains all
N Terminate messages (N positive), the FIFO has been fully drained and the
log contains all M job messages. -/
lemma deqLog_full (M N : Nat) (hN : 1 ≤ N) (s : SysState)
    (h1 : s.deqLog ++ s.queue = (initState M N).queue)
    (hterm : s.deqLog.countP (fun m => !isJob m) = N) :
    s.queue = [] ∧ s.deqLog.countP isJob = M := by
  set A : List Message := (List.range M).map Message.NewJob with hA
  set B : List Message := List.replicate N Message.Terminate with hB
  have hq : s.deqLog ++ s.queue = A ++ B := by
    rw [h1, initState_queue_eq]
  have hAterm : A.countP (fun m => !isJob m) = 0 := by
    rw [List.countP_eq_zero]
    intro a ha
    rw [hA] at ha
    obtain ⟨j, _, rfl⟩ := List.mem_map.mp ha
    simp
  have hAjob : A.countP isJob = M := by
    have hlen : A.countP isJob = A.length := by
      rw [List.countP_eq_length]
      intro a ha
      rw [hA] at ha
      obtain ⟨j, _, rfl⟩ := List.mem_map.mp ha
      simp
    simpa [hA] using hlen
  rcases List.append_eq_append_iff.mp hq with ⟨x, hAx, _⟩ | ⟨y, hy, hBy⟩
  · exfalso
    have : A.countP (fun m => !isJob m)
        = s.deqLog.countP (fun m => !isJob m) + x.countP (fun m => !isJob m) := by
      rw [hAx, List.countP_append]
    omega
  · have hymem : ∀ a ∈ y, a = Message.Terminate := by
      intro a ha
      have : a ∈ B := by
        rw [hBy]
        exact List.mem_append.mpr (Or.inl ha)
      exact List.eq_of_mem_replicate (hB ▸ this)
    have hyterm : y.countP (fun m => !isJob m) = y.length := by
      rw [List.countP_eq_length]
      intro a ha
      rw [hymem a ha]
      simp
    have hyjob : y.countP isJob = 0 := by
      rw [List.countP_eq_zero]
      intro a ha
      rw [hymem a ha]
      simp
    have hsplit : s.deqLog.countP (fun m => !isJob m)
        = A.countP (fun m => !isJob m) + y.countP (fun m => !isJob m) := by
      rw [hy, List.countP_append]
    have hBlen : B.length = N := by simp [hB]
    have hylen : y.length + s.queue.length = N := by
      have := congrArg List.length hBy
      simpa [hBlen] using this.symm
    have hqnil : s.queue = [] := by
      have : y.length = N := by omega
      have : s.queue.length = 0 := by omega
      exact List.length_eq_zero.mp this
    refine ⟨hqnil, ?_⟩
    rw [hy, List.countP_append, hAjob, hyjob]
    omega

/-- C1.  Exactly-once execution: for every pool size N of at least 1 and
every count M of jobs submitted through execute before shutdown, in every
interleaved execution of the Worker loops that reaches a state where all N
Worker threads have returned, the shared counter incremented once per job
invocation equals exactly M — no job lost, none run twice. -/
theorem all_jobs_executed_exactly_once (M N : Nat) (hN : 1 ≤ N)
    (s : SysState) (hreach : SysReach (initState M N) s)
    (hdone : ∀ w ∈ s.wstates, w = WState.terminated) :
    s.executed = M := by
  obtain ⟨h1, h2, h3, h4⟩ := sysReach_inv M N hreach
  have hterm : s.wstates.countP isTerminated = N := by
    have : s.wstates.countP isTerminated = s.wstates.length := by
      rw [List.countP_eq_length]
      intro w hw
      rw [hdone w hw]
      simp
    omega
  have hnojob : s.wstates.countP holdsJob = 0 := by
    rw [List.countP_eq_zero]
    intro w hw
    rw [hdone w hw]
    simp
  have hnoterm : s.wstates.countP holdsTerm = 0 := by
    rw [List.countP_eq_zero]
    intro w hw
    rw [hdone w hw]
    simp
  have hlogterm : s.deqLog.countP (fun m => !isJob m) = N := by omega
  obtain ⟨_, hjobs⟩ := deqLog_full M N hN s h1 hlogterm
  omega

/-- The worked interleaving is a run of the system. -/
lemma sysReach_example : SysReach (initState 1 1) exampleFinal := by
  have s1 : SysStep (initState 1 1) exampleMid1 :=
    SysStep.recvStep (initState 1 1) 0 (Message.NewJob 0) [Message.Terminate]
      (by decide) (by decide)
  have s2 : SysStep exampleMid1 exampleMid2 :=
    SysStep.execStep exampleMid1 0 0 (by decide)
  have s3 : SysStep exampleMid2 exampleMid3 :=
    SysStep.recvStep exampleMid2 0 Message.Terminate [] (by decide) (by decide)
  have s4 : SysStep exampleMid3 exampleFinal :=
    SysStep.termStep exampleMid3 0 (by decide)
  exact Relation.ReflTransGen.head s1
    (Relation.ReflTransGen.head s2
      (Relation.ReflTransGen.head s3 (Relation.ReflTransGen.single s4)))

/-- C1 witness: pool of size 1, one job submitted; the worked interleaving
reaches a state with every Worker returned, and the theorem yields a
counter value of exactly 1. -/
theorem all_jobs_executed_exactly_once_witness :
    1 ≤ 1 ∧ (∀ w ∈ exampleFinal.wstates, w = WState.terminated) ∧
      exampleFinal.executed = 1 :=
  ⟨by decide, by decide,
   all_jobs_executed_exactly_once 1 1 (by decide) exampleFinal
     sysReach_example (by decide)⟩

/-- C4.  FIFO dequeue order: in every reachable state, the log of messages
removed from the shared FIFO is the sent sequence up to its length (global
send order across all producers), and whenever a Terminate has been
dequeued at some log position, every one of the M submitted jobs occupies
its submission-order position in the log — every job submitted before
shutdown is dequeued before any Terminate. -/
theorem dequeue_order_is_send_order (M N : Nat) (s : SysState)
    (hreach : SysReach (initState M N) s) :
    (∃ rest, s.deqLog ++ rest = (initState M N).queue) ∧
    (∀ i, s.deqLog[i]? = some Message.Terminate →
      M ≤ i ∧ ∀ j, j < M → s.deqLog[j]? = some (Message.NewJob j)) := by
  obtain ⟨h1, _, _, _⟩ := sysReach_inv M N hreach
  refine ⟨⟨s.queue, h1⟩, ?_⟩
  intro i hi
  have hlen : i < s.deqLog.length := (List.getElem?_eq_some.mp hi).1
  have hinit : ((initState M N).queue)[i]? = some Message.Terminate := by
    rw [← h1, List.getElem?_append_left hlen]
    exact hi
  have hMi : M ≤ i := by
    by_contra hlt
    push_neg at hlt
    rw [initState_queue_eq] at hinit
    rw [List.getElem?_append_left (by simpa using hlt),
        List.getElem?_map, List.getElem?_range hlt] at hinit
    simp at hinit
  refine ⟨hMi, ?_⟩
  intro j hj
  have hjlen : j < s.deqLog.length := lt_of_lt_of_le hj (le_trans hMi (le_of_lt hlen))
  have : ((initState M N).queue)[j]? = some (Message.NewJob j) := by
    rw [initState_queue_eq,
        List.getElem?_append_left (by simpa using hj),
        List.getElem?_map, List.getElem?_range hj]
    rfl
  rw [← h1, List.getElem?_append_left hjlen] at this
  exact this

/-- C4 witness: in the worked interleaving of the one-Worker pool, the
dequeue log [NewJob 0, Terminate] is the sent sequence, and the Terminate
at position 1 sits after the submitted job at position 0. -/
theorem dequeue_order_is_send_order_witness :
    (∃ rest, exampleFinal.deqLog ++ rest = (initState 1 1).queue) ∧
    (∀ i, exampleFinal.deqLog[i]? = some Message.Terminate →
      1 ≤ i ∧ ∀ j, j < 1 → exampleFinal.deqLog[j]? = some (Message.NewJob j)) :=
  dequeue_order_is_send_order 1 1 exampleFinal sysReach_example

/-- Unfolding of a successful construction: the Worker vector is one
Worker per id in 0..N, all bound to channel 0, and the sender is channel
0. -/
lemma new_unfold (N : Nat) (p : ThreadPool) (hp : ThreadPool.new N = some p) :
    p.workers = (List.range N).map (fun id => Worker.new id 0) ∧
      p.queue = 0 := by
  by_cases h : N > 0
  · rw [ThreadPool.new, if_pos h] at hp
    obtain rfl := Option.some.inj hp
    exact ⟨rfl, rfl⟩
  · rw [ThreadPool.new, if_neg h] at hp
    exact absurd hp (Option.noConfusion)

/-- Identifiers of the Workers a successful construction produces. -/
lemma new_worker_ids (N : Nat) (p : ThreadPool) (hp : ThreadPool.new N = some p) :
    p.workers.map Worker.id = List.range N := by
  obtain ⟨hw, _⟩ := new_unfold N p hp
  rw [hw, List.map_map]
  have hfun : (Worker.id ∘ fun id => Worker.new id 0) = fun x : Nat => x := by
    funext x
    rfl
  rw [hfun]
  exact List.map_id _

/-- C3.  Pool-size validation: constructing a pool with size 0 fails
fatally (the assert panics before any channel is created or thread
spawned, so no usable pool is returned and no thread runs), while for
every size of at least 1 construction succeeds and the pool holds exactly
that many Workers, fixed at construction. -/
theorem new_rejects_zero_accepts_positive (N : Nat) :
    ThreadPool.new 0 = none ∧
    (1 ≤ N → ∃ p, ThreadPool.new N = some p ∧ p.workers.length = N) := by
  constructor
  · rfl
  · intro hN
    refine ⟨{ workers := (List.range N).map (fun id => Worker.new id 0),
              queue := 0 }, ?_, by simp⟩
    have h : N > 0 := hN
    rw [ThreadPool.new, if_pos h]

/-- C3 witness: size 0 is rejected, size 3 yields a pool of 3 Workers. -/
theorem new_rejects_zero_accepts_positive_witness :
    ThreadPool.new 0 = none ∧ (1 ≤ 3) ∧
      (∃ p, ThreadPool.new 3 = some p ∧ p.workers.length = 3) :=
  ⟨(new_rejects_zero_accepts_positive 3).1, by decide,
   (new_rejects_zero_accepts_positive 3).2 (by decide)⟩

/-- C8.  Construction shape: for every size N of at least 1, a successful
construction spawns exactly N Workers, with identifiers 0..N-1 assigned
stably in vector order, each Worker bound to the shared receiving endpoint
of the one channel whose sending endpoint the pool keeps, and each Worker
holding a live thread handle. -/
theorem new_spawns_workers_on_shared_channel (N : Nat) (_hN : 1 ≤ N)
    (p : ThreadPool) (hp : ThreadPool.new N = some p) :
    p.workers.length = N ∧
    p.workers.map Worker.id = List.range N ∧
    (∀ w ∈ p.workers, w.receiver = p.queue) ∧
    (∀ w ∈ p.workers, w.thread = some JoinOutcome.ok) := by
  obtain ⟨hw, hq⟩ := new_unfold N p hp
  refine ⟨by rw [hw]; simp, new_worker_ids N p hp, ?_, ?_⟩
  · intro w hwmem
    rw [hw] at hwmem
    obtain ⟨j, _, rfl⟩ := List.mem_map.mp hwmem
    rw [hq]
    rfl
  · intro w hwmem
    rw [hw] at hwmem
    obtain ⟨j, _, rfl⟩ := List.mem_map.mp hwmem
    rfl

/-- C8 witness: construction at size 2. -/
theorem new_spawns_workers_on_shared_channel_witness :
    (1 ≤ 2) ∧ ThreadPool.new 2 = some { workers := [Worker.new 0 0, Worker.new 1 0], queue := 0 } ∧
    ({ workers := [Worker.new 0 0, Worker.new 1 0], queue := 0 } : ThreadPool).workers.length = 2 ∧
    ({ workers := [Worker.new 0 0, Worker.new 1 0], queue := 0 } : ThreadPool).workers.map Worker.id = List.range 2 :=
  have h := new_spawns_workers_on_shared_channel 2 (by decide)
    { workers := [Worker.new 0 0, Worker.new 1 0], queue := 0 } (by decide)
  ⟨by decide, by decide, h.1, h.2.1⟩

/-- C6.  Fire-and-forget submission: execute wraps the job as a NewJob
message appended at the FIFO tail and returns the unit value — no
completion or failure information flows back to the caller — and after any
number of submissions (and before any Worker step) the shared counter is
still 0: submission never waits for, nor performs, execution. -/
theorem execute_is_fire_and_forget (chan : List Message) (j : Nat) (M N : Nat) :
    ThreadPool.execute chan j = ((), chan ++ [Message.NewJob j]) ∧
    (initState M N).executed = 0 :=
  ⟨rfl, rfl⟩

/-- C5.  Worker state machine: the loop stays running across NewJob
messages, invoking each carried job exactly once in dequeue order; it
exits exactly when a Terminate is dequeued, leaving later messages
unconsumed; and on a stream with no Terminate the loop never exits. -/
theorem worker_loop_state_machine :
    (∀ msgs : List Message, (workerRun msgs).2.1 = true ↔ Message.Terminate ∈ msgs) ∧
    (∀ js : List Nat, ∀ rest : List Message,
      workerRun (js.map Message.NewJob ++ Message.Terminate :: rest)
        = (js, true, rest)) ∧
    (∀ js : List Nat, workerRun (js.map Message.NewJob) = (js, false, [])) := by
  refine ⟨?_, ?_, ?_⟩
  · intro msgs
    induction msgs with
    | nil => simp [workerRun]
    | cons m rest ih =>
        cases m with
        | NewJob j => simpa [workerRun] using ih
        | Terminate => simp [workerRun]
  · intro js rest
    induction js with
    | nil => simp [workerRun]
    | cons j js ih => simp [workerRun, ih]
  · intro js
    induction js with
    | nil => rfl
    | cons j js ih => simp [workerRun, ih]

/-- Join pass over a vector of Workers whose threads all exit normally:
every handle is taken and joined, in vector order, with no panic, leaving
every handle absent. -/
lemma joinLoop_all_ok (ws : List Worker)
    (h : ∀ w ∈ ws, w.thread = some JoinOutcome.ok) :
    joinLoop ws
      = (ws.map Worker.id, none, ws.map (fun w => { w with thread := none })) := by
  induction ws with
  | nil => rfl
  | cons w rest ih =>
      have hw : w.thread = some JoinOutcome.ok := h w (List.mem_cons_self w rest)
      have hrest : ∀ u ∈ rest, u.thread = some JoinOutcome.ok := by
        intro u hu
        exact h u (List.mem_cons_of_mem w hu)
      rw [joinLoop, hw, ih hrest]
      rfl

/-- Mapping a constant function over a list is a replicate of its
length. -/
lemma map_const_eq_replicate {α β : Type} (l : List α) (b : β) :
    l.map (fun _ => b) = List.replicate l.length b := by
  induction l with
  | nil => rfl
  | cons x xs ih => simp [ih, List.replicate_succ]

/-- C2.  Shutdown protocol: when every Worker thread exits normally, drop
performs one Terminate send per Worker first, in a separate pass, before
any join; it then joins the Workers in vector (index) order, each handle
exactly once, and leaves every handle taken so none can be joined twice.
For a pool built by new, the join order is exactly 0..N-1. -/
theorem drop_sends_all_terminates_then_joins_in_order (p : ThreadPool)
    (hok : ∀ w ∈ p.workers, w.thread = some JoinOutcome.ok) :
    dropActions p
      = List.replicate p.workers.length Action.sendTerminate
          ++ (p.workers.map Worker.id).map Action.join ∧
    (joinLoop p.workers).2.1 = none ∧
    (∀ w ∈ (joinLoop p.workers).2.2, w.thread = none) ∧
    (∀ N, ThreadPool.new N = some p →
      (joinLoop p.workers).1 = List.range N ∧ ((joinLoop p.workers).1).Nodup) := by
  have hjoin := joinLoop_all_ok p.workers hok
  refine ⟨?_, by rw [hjoin], ?_, ?_⟩
  · rw [dropActions, hjoin, map_const_eq_replicate]
  · intro w hw
    rw [hjoin] at hw
    obtain ⟨u, _, rfl⟩ := List.mem_map.mp hw
    rfl
  · intro N hp
    rw [hjoin]
    have hid := new_worker_ids N p hp
    constructor
    · show p.workers.map Worker.id = List.range N
      exact hid
    · show (p.workers.map Worker.id).Nodup
      rw [hid]
      exact List.nodup_range N

/-- C2 witness: a freshly built pool of 2 Workers; drop emits two
Terminate sends followed by joins of Workers 0 and 1, in order. -/
theorem drop_sends_all_terminates_then_joins_in_order_witness :
    dropActions { workers := [Worker.new 0 0, Worker.new 1 0], queue := 0 }
      = [Action.sendTerminate, Action.sendTerminate,
         Action.join 0, Action.join 1] ∧
    (joinLoop [Worker.new 0 0, Worker.new 1 0]).2.1 = none :=
  have h := drop_sends_all_terminates_then_joins_in_order
    { workers := [Worker.new 0 0, Worker.new 1 0], queue := 0 } (by decide)
  ⟨by rw [h.1]; rfl, h.2.1⟩

/-- C10.  Unwrap on join: if the Workers before position k in the vector
all exit normally but the Worker at position k died from a propagated job
panic, the join pass joins 0..k, the unwrap of the dead Worker's join
result panics there — drop itself panics instead of completing — and the
Workers after position k are left with their handles, never joined by this
drop run. -/
theorem drop_join_unwrap_panics_on_dead_worker (ws1 : List Worker)
    (w : Worker) (ws2 : List Worker)
    (hok : ∀ u ∈ ws1, u.thread = some JoinOutcome.ok)
    (hdead : w.thread = some JoinOutcome.panicked) :
    joinLoop (ws1 ++ w :: ws2)
      = (ws1.map Worker.id ++ [w.id], some w.id,
         ws1.map (fun u => { u with thread := none })
           ++ { w with thread := none } :: ws2) := by
  induction ws1 with
  | nil =>
      simp only [List.nil_append, List.map_nil]
      rw [joinLoop, hdead]
  | cons u rest ih =>
      have hu : u.thread = some JoinOutcome.ok := hok u (List.mem_cons_self u rest)
      have hrest : ∀ v ∈ rest, v.thread = some JoinOutcome.ok := by
        intro v hv
        exact hok v (List.mem_cons_of_mem u hv)
      simp only [List.cons_append, List.map_cons]
      rw [joinLoop, hu, ih hrest]

/-- C10 witness: three Workers, the middle one dead from a job panic; drop
joins Workers 0 and 1, panics at Worker 1, and never joins Worker 2. -/
theorem drop_join_unwrap_panics_on_dead_worker_witness :
    joinLoop [⟨0, 0, some JoinOutcome.ok⟩, ⟨1, 0, some JoinOutcome.panicked⟩,
              ⟨2, 0, some JoinOutcome.ok⟩]
      = ([0, 1], some 1,
         [⟨0, 0, none⟩, ⟨1, 0, none⟩, ⟨2, 0, some JoinOutcome.ok⟩]) :=
  drop_join_unwrap_panics_on_dead_worker
    [⟨0, 0, some JoinOutcome.ok⟩] ⟨1, 0, some JoinOutcome.panicked⟩
    [⟨2, 0, some JoinOutcome.ok⟩] (by decide) (by decide)

/-- C7 counterexample: a Worker stream holding a panicking job, then a
well-behaved job, then Terminate.  The claim says the fault is caught at
the loop boundary, the Worker stays alive and the later job still runs; on
the source the panic propagates out of call_box, the thread dies, the
later job never runs and the loop never reaches Terminate. -/
theorem job_fault_not_isolated :
    workerRunP [PMessage.NewJob (JobSpec.panics 0),
                PMessage.NewJob (JobSpec.fine 1),
                PMessage.Terminate]
      = ([], WorkerExit.died,
         [PMessage.NewJob (JobSpec.fine 1), PMessage.Terminate]) ∧
    WorkerExit.died ≠ WorkerExit.terminated := by
  exact ⟨rfl, by decide⟩

/-- C7 as amended: a job panic is not caught at the Worker-loop boundary;
it propagates and kills the Worker thread.  The Worker executes exactly
the well-behaved jobs dequeued before the faulting one, ends dead rather
than terminated, and every message after the faulting job is left
unprocessed by that Worker. -/
theorem job_fault_kills_worker (js : List Nat) (k : Nat) (rest : List PMessage) :
    workerRunP (js.map (fun j => PMessage.NewJob (JobSpec.fine j))
        ++ PMessage.NewJob (JobSpec.panics k) :: rest)
      = (js, WorkerExit.died, rest) := by
  induction js with
  | nil => rfl
  | cons j js ih => simp [workerRunP, ih]

/-- C9.  Lock discipline of the Worker loop: in the event trace of one
iteration, no job invocation runs while the Mutex on the shared receiver
is held — the guard, a temporary of the receive statement, is dropped
before the match — and the Mutex is held exactly while the receive itself
(and the release closing it) runs. -/
theorem worker_releases_lock_before_invoking :
    (∀ m : Message, ∀ k : Nat, ∀ j : Nat,
      (iterationEvents m)[k]? = some (LockEvent.invoke j) →
        ¬ lockHeldAt (iterationEvents m) k ∧
        ∃ r : Nat, r < k ∧ (iterationEvents m)[r]? = some LockEvent.release) ∧
    (∀ m : Message, ∀ k : Nat, ∀ e : LockEvent,
      (iterationEvents m)[k]? = some e →
        (lockHeldAt (iterationEvents m) k ↔
          e = LockEvent.recv ∨ e = LockEvent.release)) := by
  constructor
  · intro m k j hk
    have hlen : k < (iterationEvents m).length := (List.getElem?_eq_some.mp hk).1
    cases m with
    | NewJob i =>
        have h4 : k < 4 := by simpa [iterationEvents, lockStmtEvents, matchEvents] using hlen
        interval_cases k <;>
          simp_all [iterationEvents, lockStmtEvents, matchEvents, lockHeldAt,
                    isAcquire, isRelease] <;>
          exact ⟨2, by omega, rfl⟩
    | Terminate =>
        have h4 : k < 4 := by simpa [iterationEvents, lockStmtEvents, matchEvents] using hlen
        interval_cases k <;>
          simp_all [iterationEvents, lockStmtEvents, matchEvents]
  · intro m k e hk
    have hlen : k < (iterationEvents m).length := (List.getElem?_eq_some.mp hk).1
    cases m with
    | NewJob i =>
        have h4 : k < 4 := by simpa [iterationEvents, lockStmtEvents, matchEvents] using hlen
        interval_cases k
        all_goals
          (simp only [iterationEvents, lockStmtEvents, matchEvents,
             List.cons_append, List.nil_append, List.getElem?_cons_zero,
             List.getElem?_cons_succ, Option.some.injEq] at hk;
           subst hk;
           simp [lockHeldAt, iterationEvents, lockStmtEvents, matchEvents,
             isAcquire, isRelease, List.countP_cons])
    | Terminate =>
        have h4 : k < 4 := by simpa [iterationEvents, lockStmtEvents, matchEvents] using hlen
        interval_cases k
        all_goals
          (simp only [iterationEvents, lockStmtEvents, matchEvents,
             List.cons_append, List.nil_append, List.getElem?_cons_zero,
             List.getElem?_cons_succ, Option.some.injEq] at hk;
           subst hk;
           simp [lockHeldAt, iterationEvents, lockStmtEvents, matchEvents,
             isAcquire, isRelease, List.countP_cons])

/-- C9 witness: in the iteration dequeuing NewJob 5, the invocation at
position 3 runs with the lock free, after the release at position 2, and
the receive at position 1 runs with the lock held. -/
theorem worker_releases_lock_before_invoking_witness :
    (¬ lockHeldAt (iterationEvents (Message.NewJob 5)) 3 ∧
      ∃ r : Nat, r < 3 ∧
        (iterationEvents (Message.NewJob 5))[r]? = some LockEvent.release) ∧
    (lockHeldAt (iterationEvents (Message.NewJob 5)) 1 ↔
      LockEvent.recv = LockEvent.recv ∨ LockEvent.recv = LockEvent.release) :=
  ⟨(worker_releases_lock_before_invoking).1 (Message.NewJob 5) 3 5 (by decide),
   (worker_releases_lock_before_invoking).2 (Message.NewJob 5) 1 LockEvent.recv
     (by decide)⟩

end ThreadPoolLib
